import Mathlib

/-!
Shallow embedding of the gcs_copy command line program, which copies files
between the local filesystem and GCS object storage.  Go strings are
modelled as lists of characters, clean local filesystem paths as lists of
path components, the local filesystem and the object store as partial
maps, and the listings produced by the external collaborators (the
recursive directory walk and the object store prefix listing) as explicit
input lists.
-/

namespace GcsCopy

/-- A Go string: object keys, bucket names, file contents. -/
abbrev Content := List Char

/-- A clean local filesystem path, as its list of components. -/
abbrev Path := List Content

/-- The local filesystem: a partial map from paths to file contents. -/
abbrev Fs := Path → Option Content

/-- The object store: a partial map from bucket and key to contents. -/
abbrev Store := Content → Content → Option Content

/-- The five characters of the fixed scheme token matched by the literal
anchored part of the pattern in gcsRegexp. -/
def gsScheme : Content := ['g', 's', ':', '/', '/']

/-- Strip the leading scheme token from the input, as the anchored literal
part of gcsRegexp does; none models the case where the pattern cannot
match at all. -/
def dropGsScheme (s : Content) : Option Content :=
  match s with
  | c1 :: c2 :: c3 :: c4 :: c5 :: rest =>
    if c1 = 'g' ∧ c2 = 's' ∧ c3 = ':' ∧ c4 = '/' ∧ c5 = '/' then some rest else none
  | _ => none

/-- Split a string at its first slash, as the two capture groups of
gcsRegexp do: the first group is a run of non-slash characters, so it can
reach at most the first slash, which the literal slash of the pattern then
consumes. -/
def splitAtFirstSlash : Content → Option (Content × Content)
  | [] => none
  | c :: cs =>
    if c = '/' then some ([], cs)
    else (splitAtFirstSlash cs).map (fun p => (c :: p.1, p.2))

/-- Model of splitGcsPath: match the anchored pattern of gcsRegexp against
the whole input.  The second capture group of the pattern uses the dot
metacharacter, which in the RE2 dialect used by the Go regexp package does
not match a newline, so a post-slash remainder holding a newline makes the
whole pattern fail; the negated character class of the first group does
match a newline.  A some result models the matched case of the Go
function, none models its error return, which the caller treats as a
local path rather than as a failure. -/
def splitGcsPath (path : Content) : Option (Content × Content) :=
  match dropGsScheme path with
  | none => none
  | some rest =>
    match splitAtFirstSlash rest with
    | none => none
    | some (b, k) => if '\n' ∈ k then none else some (b, k)

/-- The outcome of the dispatcher in main: either the usage abort taken
when fewer than two positional arguments are present, which exits the
process before any transfer or any filesystem or network activity, or one
of the four copy directions with the classified operands. -/
inductive Route where
  | usage : Route
  | gcsToGcs : Content → Content → Content → Content → Route
  | gcsToLocal : Content → Content → Content → Route
  | localToGcs : Content → Content → Content → Route
  | localToLocal : Content → Content → Route
deriving DecidableEq

/-- Model of main: classify the first two positional arguments with
splitGcsPath and select the copy direction; with fewer than two arguments
the program aborts with a usage message before doing anything else. -/
def mainRoute (args : List Content) : Route :=
  match args with
  | src :: dst :: _ =>
    match splitGcsPath src, splitGcsPath dst with
    | some (fb, fk), some (tb, tk) => Route.gcsToGcs fb fk tb tk
    | some (fb, fk), none => Route.gcsToLocal fb fk dst
    | none, some (tb, tk) => Route.localToGcs src tb tk
    | none, none => Route.localToLocal src dst
  | _ => Route.usage

/-- Overwrite one path of the local filesystem, as a create or truncate
open of that path followed by a full write does. -/
def fsInsert (fs : Fs) (p : Path) (v : Content) : Fs :=
  fun q => if q = p then some v else fs q

/-- Overwrite one object of the store, as a committed object write or a
server side copy does. -/
def storeInsert (g : Store) (b k v : Content) : Store :=
  fun b2 k2 => if b2 = b ∧ k2 = k then some v else g b2 k2

/-- The state the program acts on: the local filesystem and the object
store. -/
structure World where
  fs : Fs
  store : Store

/-- Model of copyFileFromLocalToLocal: open the source for reading, abort
fatally when that fails; create the parent directories; open the
destination with create and truncate, which empties the destination file
at once; stream the bytes the source file holds at that moment, which is
the empty content when the destination open truncated the very file being
read; close the destination.  The returned filesystem reflects the
completed run, none models the fatal abort. -/
def copyFileFromLocalToLocal (srcFilePath dstFilePath : Path) (fs : Fs) : Option Fs :=
  match fs srcFilePath with
  | none => none
  | some _ =>
    let truncated := fsInsert fs dstFilePath []
    some (fsInsert truncated dstFilePath ((truncated srcFilePath).getD []))

/-- Model of copyFileFromLocalToGcs: open the local source for reading,
abort fatally when that fails; stream it into a writer for the
destination object, which commits the object on close. -/
def copyFileFromLocalToGcs (srcFilePath : Path) (dstBucket dstFilePath : Content)
    (w : World) : Option World :=
  match w.fs srcFilePath with
  | none => none
  | some data => some ⟨w.fs, storeInsert w.store dstBucket dstFilePath data⟩

/-- Model of copyFileFromGcsToLocal: open a reader on the source object,
abort fatally when that fails; create the parent directories; open the
local destination with create and truncate; stream the object bytes,
which local writes cannot disturb; sync and close. -/
def copyFileFromGcsToLocal (srcBucket srcFilePath : Content) (dstFilePath : Path)
    (w : World) : Option World :=
  match w.store srcBucket srcFilePath with
  | none => none
  | some data =>
    some ⟨fsInsert (fsInsert w.fs dstFilePath []) dstFilePath data, w.store⟩

/-- Model of copyFileFromGcsToGcs: a server side copy request naming the
source and destination objects; the service reads the source object and
writes its content to the destination object. -/
def copyFileFromGcsToGcs (srcBucket srcFilePath dstBucket dstFilePath : Content)
    (w : World) : Option World :=
  match w.store srcBucket srcFilePath with
  | none => none
  | some data => some ⟨w.fs, storeInsert w.store dstBucket dstFilePath data⟩

/-- One event of the recursive local directory walk, an external
collaborator: the path of the visited entry relative to the walk root as
component list, the empty list standing for the root itself, whether the
entry is a directory, and whether the walker delivered an enumeration
error to the callback for this event instead of a valid entry. -/
structure WalkEntry where
  rel : Path
  isDir : Bool
  errDelivered : Bool

/-- The condition under which the walk callback transfers an entry: its
relative path is not the dot marker of the root and it is not a
directory. -/
def isCopiedEntry (e : WalkEntry) : Bool :=
  !e.rel.isEmpty && !e.isDir

/-- Model of the directory branch of copyFromLocalToLocal: replay the walk
events in order; a delivered walk error hits the fatal logger in the
callback and aborts the process, a file entry is copied with
copyFileFromLocalToLocal to the destination root joined with the relative
path, everything else is skipped.  The result carries the filesystem
after the run together with the list of single file transfers performed,
in order; none models the fatal abort. -/
def copyFromLocalToLocal (srcPath dstPath : Path) :
    List WalkEntry → Fs → Option (Fs × List (Path × Path))
  | [], fs => some (fs, [])
  | e :: rest, fs =>
    if e.errDelivered then none
    else if isCopiedEntry e then
      match copyFileFromLocalToLocal (srcPath ++ e.rel) (dstPath ++ e.rel) fs with
      | none => none
      | some fs1 =>
        (copyFromLocalToLocal srcPath dstPath rest fs1).map
          (fun r => (r.1, (srcPath ++ e.rel, dstPath ++ e.rel) :: r.2))
    else copyFromLocalToLocal srcPath dstPath rest fs

/-- Render a component path the way filepath.Rel renders it on a
slash-separated system, joining components with a slash. -/
def pathToString : Path → Content
  | [] => []
  | [c] => c
  | c :: rest => c ++ '/' :: pathToString rest

/-- Append a trailing slash unless one is already present, as the
HasSuffix check before the key concatenation does. -/
def ensureTrailingSlash (s : Content) : Content :=
  if s.getLast? = some '/' then s else s ++ ['/']

/-- The destination key computation of the remote walk loops and of
copyFromLocalToGcs: the destination root, a slash separator unless the
root already ends in one, then the relative path. -/
def gcsDirJoin (dstPath rel : Content) : Content :=
  ensureTrailingSlash dstPath ++ rel

/-- Model of the directory branch of copyFromLocalToGcs: replay the walk
events in order; a delivered walk error aborts the process through the
fatal logger in the callback, a file entry is uploaded with
copyFileFromLocalToGcs under the destination key root. -/
def copyFromLocalToGcs (srcPath : Path) (dstBucket dstKeyRoot : Content) :
    List WalkEntry → World → Option World
  | [], w => some w
  | e :: rest, w =>
    if e.errDelivered then none
    else if isCopiedEntry e then
      match copyFileFromLocalToGcs (srcPath ++ e.rel) dstBucket
          (gcsDirJoin dstKeyRoot (pathToString e.rel)) w with
      | none => none
      | some w1 => copyFromLocalToGcs srcPath dstBucket dstKeyRoot rest w1
    else copyFromLocalToGcs srcPath dstBucket dstKeyRoot rest w

/-- The transfer pairs produced by the loop of copyFromGcsToLocal over a
prefix listing of object keys: the relative path is the listed key with
the first characters sliced off up to the length of the source key root;
an empty relative path sends the object to the literal destination path,
any other goes through the platform join of the destination root with the
relative path, here an explicit parameter standing for filepath.Join. -/
def copyFromGcsToLocalPlan (join : Content → Content → Content)
    (srcPath dstPath : Content) (listing : List Content) :
    List (Content × Content) :=
  listing.map fun name =>
    let rel := name.drop srcPath.length
    if rel = [] then (name, dstPath) else (name, join dstPath rel)

/-- The transfer pairs produced by the loop of copyFromGcsToGcs over a
prefix listing of object keys: same relative path computation, with the
destination key built from the destination root, a slash separator unless
already present, and the relative path. -/
def copyFromGcsToGcsPlan (srcPath dstPath : Content) (listing : List Content) :
    List (Content × Content) :=
  listing.map fun name =>
    let rel := name.drop srcPath.length
    if rel = [] then (name, dstPath) else (name, gcsDirJoin dstPath rel)

/-- The handle and filesystem operations a run of copyFileFromLocalToLocal
performs, in program order. -/
inductive FileOp where
  | openRead : Path → FileOp
  | mkdirAll : Path → FileOp
  | openWriteTrunc : Path → FileOp
  | copyBytes : FileOp
  | closeHandle : Path → FileOp
deriving DecidableEq

/-- The operation trace of copyFileFromLocalToLocal: open the source for
reading, create the destination parent directories, open the destination
with create and truncate, stream the bytes, close the destination handle.
No close of the source handle appears anywhere in the routine; the handle
is released only when the process exits. -/
def copyFileFromLocalToLocalOps (src dst : Path) : List FileOp :=
  [FileOp.openRead src, FileOp.mkdirAll dst.dropLast, FileOp.openWriteTrunc dst,
    FileOp.copyBytes, FileOp.closeHandle dst]

/-- Execute an operation trace against an oracle naming the failing
operations; every failure is routed to the fatal logger, so the process
completes, true, exactly when no executed operation fails. -/
def runOps (fails : FileOp → Bool) : List FileOp → Bool
  | [] => true
  | o :: rest => if fails o then false else runOps fails rest

/-- The search predicate for the destination path a walk entry writes:
used to state which entry is responsible for the final content of a
destination path. -/
def copyPred (dstPath p : Path) (e : WalkEntry) : Bool :=
  isCopiedEntry e && decide (p = dstPath ++ e.rel)

theorem dropGsScheme_eq_some (s r : Content) :
    dropGsScheme s = some r ↔ s = gsScheme ++ r := by
  rcases s with _ | ⟨c1, _ | ⟨c2, _ | ⟨c3, _ | ⟨c4, _ | ⟨c5, rest⟩⟩⟩⟩⟩ <;>
    simp [dropGsScheme, gsScheme] <;> tauto

theorem splitAtFirstSlash_eq_some (r : Content) :
    ∀ b k : Content,
      splitAtFirstSlash r = some (b, k) ↔ (r = b ++ '/' :: k ∧ '/' ∉ b) := by
  induction r with
  | nil =>
    intro b k
    constructor
    · intro h; exact absurd h (by simp [splitAtFirstSlash])
    · rintro ⟨h, -⟩; exact absurd h (by simp)
  | cons c cs ih =>
    intro b k
    by_cases hc : c = '/'
    · subst hc
      have hred : splitAtFirstSlash ('/' :: cs) = some ([], cs) := by
        simp [splitAtFirstSlash]
      constructor
      · intro h
        rw [hred] at h
        have h3 := Option.some.inj h
        obtain ⟨rfl, rfl⟩ : b = [] ∧ k = cs :=
          ⟨(congrArg Prod.fst h3).symm, (congrArg Prod.snd h3).symm⟩
        exact ⟨rfl, by simp⟩
      · rintro ⟨heq, hmem⟩
        rcases b with _ | ⟨c2, b2⟩
        · simp only [List.nil_append, List.cons.injEq] at heq
          obtain ⟨-, rfl⟩ := heq
          exact hred
        · simp only [List.cons_append, List.cons.injEq] at heq
          exact absurd (List.mem_cons.2 (Or.inl heq.1)) hmem
    · constructor
      · intro h
        simp only [splitAtFirstSlash, if_neg hc] at h
        rw [Option.map_eq_some'] at h
        obtain ⟨p, hsp, heq⟩ := h
        obtain ⟨b2, k2⟩ := p
        simp only [Prod.mk.injEq] at heq
        obtain ⟨rfl, rfl⟩ := heq
        obtain ⟨hcs, hnb⟩ := (ih b2 k2).1 hsp
        refine ⟨by rw [hcs]; rfl, ?_⟩
        simp only [List.mem_cons, not_or]
        exact ⟨fun h2 => hc h2.symm, hnb⟩
      · rintro ⟨heq, hmem⟩
        rcases b with _ | ⟨c2, b2⟩
        · simp only [List.nil_append, List.cons.injEq] at heq
          exact absurd heq.1 hc
        · simp only [List.cons_append, List.cons.injEq] at heq
          obtain ⟨rfl, hcs⟩ := heq
          simp only [List.mem_cons, not_or] at hmem
          simp only [splitAtFirstSlash, if_neg hc]
          rw [(ih b2 k).2 ⟨hcs, hmem.2⟩]
          rfl

theorem splitAtFirstSlash_eq_none (r : Content) (h : '/' ∉ r) :
    splitAtFirstSlash r = none := by
  induction r with
  | nil => rfl
  | cons c cs ih =>
    simp only [List.mem_cons, not_or] at h
    have hc : ¬ c = '/' := fun hch => h.1 hch.symm
    simp [splitAtFirstSlash, hc, ih h.2]

theorem splitGcsPath_eq_some_iff (s b k : Content) :
    splitGcsPath s = some (b, k) ↔
      (s = gsScheme ++ (b ++ '/' :: k) ∧ '/' ∉ b ∧ '\n' ∉ k) := by
  constructor
  · intro h
    unfold splitGcsPath at h
    split at h
    · exact absurd h (by simp)
    · rename_i rest hd
      split at h
      · exact absurd h (by simp)
      · rename_i bk b0 k0 hsp
        split at h
        · exact absurd h (by simp)
        · rename_i hnl
          have h3 := Option.some.inj h
          obtain ⟨rfl, rfl⟩ : b = b0 ∧ k = k0 :=
            ⟨(congrArg Prod.fst h3).symm, (congrArg Prod.snd h3).symm⟩
          obtain ⟨hr, hnb⟩ := (splitAtFirstSlash_eq_some rest _ _).1 hsp
          refine ⟨?_, hnb, hnl⟩
          rw [(dropGsScheme_eq_some s rest).1 hd, hr]
  · rintro ⟨rfl, hnb, hnk⟩
    have h1 : dropGsScheme (gsScheme ++ (b ++ '/' :: k)) = some (b ++ '/' :: k) :=
      (dropGsScheme_eq_some _ _).2 rfl
    have h2 : splitAtFirstSlash (b ++ '/' :: k) = some (b, k) :=
      (splitAtFirstSlash_eq_some _ b k).2 ⟨rfl, hnb⟩
    simp only [splitGcsPath, h1, h2, if_neg hnk]

theorem splitGcsPath_gsScheme_no_slash (b : Content) (hb : '/' ∉ b) :
    splitGcsPath (gsScheme ++ b) = none := by
  have h1 : dropGsScheme (gsScheme ++ b) = some b := (dropGsScheme_eq_some _ _).2 rfl
  simp only [splitGcsPath, h1, splitAtFirstSlash_eq_none b hb]

/-- Claim C1, amended: the Location Classifier accepts exactly the strings
of the form scheme token, then a slash-free bucket, then a slash, then a
key in which no newline occurs, and on such a string it returns that
bucket and that key; every other string, including one whose post-bucket
remainder holds a newline, is reported as a non-match, which the caller
treats as a local path rather than as an error.  The newline restriction
comes from the dot metacharacter in the second capture group of
gcsRegexp, which does not match a newline in the RE2 dialect. -/
theorem remote_classification (s b k : Content) :
    splitGcsPath s = some (b, k) ↔
      (s = gsScheme ++ (b ++ '/' :: k) ∧ '/' ∉ b ∧ '\n' ∉ k) :=
  splitGcsPath_eq_some_iff s b k

/-- Counterexample to claim C1 as stated: the input gs://b/a(newline)b has
exactly the shape scheme, slash-free bucket, slash, remainder key, yet the
classifier reports a non-match, so the string is treated as a local path
instead of bucket b with key a(newline)b. -/
theorem remote_classification_cex :
    '/' ∉ (['b'] : Content) ∧
      splitGcsPath (gsScheme ++ (['b'] ++ '/' :: ['a', '\n', 'b'])) = none := by
  decide

/-- Claim C5, amended: the bucket component of every accepted remote
reference is a possibly empty run of non-slash characters: the first
capture group of gcsRegexp uses a star quantifier, so the empty bucket is
accepted, but a slash can never occur in the bucket. -/
theorem bucket_always_slash_free (s b k : Content)
    (h : splitGcsPath s = some (b, k)) : '/' ∉ b :=
  ((splitGcsPath_eq_some_iff s b k).1 h).2.1

/-- Witness for claim C5: the amended theorem applied at the concrete
accepted input gs://mybucket/key. -/
theorem bucket_always_slash_free_witness :
    '/' ∉ (['m', 'y', 'b'] : Content) :=
  bucket_always_slash_free
    (gsScheme ++ (['m', 'y', 'b'] ++ '/' :: ['k'])) ['m', 'y', 'b'] ['k']
    (by decide)

/-- Counterexample to claim C5 as stated: the input gs:///k is accepted as
remote with the empty bucket, because the first capture group of
gcsRegexp matches zero or more non-slash characters rather than one or
more. -/
theorem bucket_always_slash_free_cex :
    splitGcsPath (gsScheme ++ ('/' :: ['k'])) = some ([], ['k']) := by
  decide

/-- Claim C7: with fewer than two positional arguments the dispatcher
takes the usage abort route, which exits the process with a usage
diagnostic before any transfer routine runs and before any filesystem or
remote activity. -/
theorem usage_on_missing_args (args : List Content) (h : args.length < 2) :
    mainRoute args = Route.usage := by
  rcases args with _ | ⟨a, _ | ⟨b, rest⟩⟩
  · rfl
  · rfl
  · simp only [List.length_cons] at h
    omega

/-- Witness for claim C7: the theorem applied at the concrete single
argument invocation. -/
theorem usage_on_missing_args_witness :
    mainRoute [['x']] = Route.usage :=
  usage_on_missing_args [['x']] (by decide)

/-- Claim C9: a string made of the scheme token followed by a slash-free
bucket name, with no slash after the bucket, does not match gcsRegexp, so
it is classified as a local filesystem path; when both arguments are such
non-matches the dispatcher routes to the local to local copy routine. -/
theorem no_slash_after_bucket_is_local (b other : Content)
    (hb : '/' ∉ b) (hother : splitGcsPath other = none) :
    splitGcsPath (gsScheme ++ b) = none ∧
      mainRoute [gsScheme ++ b, other] = Route.localToLocal (gsScheme ++ b) other ∧
      mainRoute [other, gsScheme ++ b] = Route.localToLocal other (gsScheme ++ b) := by
  have h1 : splitGcsPath (gsScheme ++ b) = none := splitGcsPath_gsScheme_no_slash b hb
  refine ⟨h1, ?_, ?_⟩
  · simp only [mainRoute, h1, hother]
  · simp only [mainRoute, h1, hother]

/-- Witness for claim C9: the theorem applied at the concrete input
gs://mybucket with the plain local destination out. -/
theorem no_slash_after_bucket_is_local_witness :
    splitGcsPath (gsScheme ++ ['m', 'y', 'b', 'u', 'c', 'k', 'e', 't']) = none ∧
      mainRoute [gsScheme ++ ['m', 'y', 'b', 'u', 'c', 'k', 'e', 't'], ['o', 'u', 't']] =
        Route.localToLocal (gsScheme ++ ['m', 'y', 'b', 'u', 'c', 'k', 'e', 't']) ['o', 'u', 't'] ∧
      mainRoute [['o', 'u', 't'], gsScheme ++ ['m', 'y', 'b', 'u', 'c', 'k', 'e', 't']] =
        Route.localToLocal ['o', 'u', 't'] (gsScheme ++ ['m', 'y', 'b', 'u', 'c', 'k', 'e', 't']) :=
  no_slash_after_bucket_is_local ['m', 'y', 'b', 'u', 'c', 'k', 'e', 't'] ['o', 'u', 't']
    (by decide) (by decide)

theorem fsInsert_pos (fs : Fs) (p : Path) (v : Content) :
    fsInsert fs p v p = some v := by
  simp [fsInsert]

theorem fsInsert_neg (fs : Fs) (p q : Path) (v : Content) (h : q ≠ p) :
    fsInsert fs p v q = fs q := by
  simp [fsInsert, h]

theorem copyFileFromLocalToLocal_run (src dst : Path) (fs : Fs) (c : Content)
    (hsrc : fs src = some c) (hne : dst ≠ src) :
    copyFileFromLocalToLocal src dst fs =
        some (fsInsert (fsInsert fs dst []) dst c) ∧
      ∀ p, fsInsert (fsInsert fs dst []) dst c p =
        if p = dst then some c else fs p := by
  have hts : fsInsert fs dst [] src = some c := by
    rw [fsInsert_neg fs dst src [] (fun h => hne h.symm), hsrc]
  constructor
  · simp only [copyFileFromLocalToLocal, hsrc, hts, Option.getD_some]
  · intro p
    by_cases hp : p = dst
    · subst hp
      rw [fsInsert_pos, if_pos rfl]
    · rw [fsInsert_neg _ _ _ _ hp, fsInsert_neg _ _ _ _ hp, if_neg hp]

theorem copyFromLocalToLocal_run (srcPath dstPath : Path) :
    ∀ (entries : List WalkEntry) (fs : Fs),
      (∀ e ∈ entries, e.errDelivered = false) →
      (∀ e ∈ entries, isCopiedEntry e = true → fs (srcPath ++ e.rel) ≠ none) →
      (∀ e ∈ entries, ∀ e2 ∈ entries, dstPath ++ e.rel ≠ srcPath ++ e2.rel) →
      List.Pairwise (fun a b => a.rel ≠ b.rel) entries →
      ∃ fs2,
        copyFromLocalToLocal srcPath dstPath entries fs =
          some (fs2, (entries.filter isCopiedEntry).map
            (fun e => (srcPath ++ e.rel, dstPath ++ e.rel))) ∧
        ∀ p, fs2 p =
          match entries.find? (copyPred dstPath p) with
          | some e => fs (srcPath ++ e.rel)
          | none => fs p := by
  intro entries
  induction entries with
  | nil =>
    intro fs _ _ _ _
    exact ⟨fs, rfl, fun p => rfl⟩
  | cons e rest ih =>
    intro fs hclean hsrc hdisj hnd
    have hce : e.errDelivered = false := hclean e (by simp)
    rw [List.pairwise_cons] at hnd
    by_cases hcopy : isCopiedEntry e = true
    · obtain ⟨c, hc⟩ : ∃ c, fs (srcPath ++ e.rel) = some c := by
        cases hfs : fs (srcPath ++ e.rel) with
        | none => exact absurd hfs (hsrc e (by simp) hcopy)
        | some c => exact ⟨c, rfl⟩
      have hne : dstPath ++ e.rel ≠ srcPath ++ e.rel := hdisj e (by simp) e (by simp)
      obtain ⟨hrun1, hpt1⟩ := copyFileFromLocalToLocal_run
        (srcPath ++ e.rel) (dstPath ++ e.rel) fs c hc hne
      have hsrc1 : ∀ e2 ∈ rest, isCopiedEntry e2 = true →
          fsInsert (fsInsert fs (dstPath ++ e.rel) []) (dstPath ++ e.rel) c
            (srcPath ++ e2.rel) ≠ none := by
        intro e2 he2 hc2
        rw [hpt1 (srcPath ++ e2.rel),
          if_neg (fun hh => (hdisj e (by simp) e2 (by simp [he2])) hh.symm)]
        exact hsrc e2 (by simp [he2]) hc2
      obtain ⟨fs2, hrun2, hpt2⟩ :=
        ih (fsInsert (fsInsert fs (dstPath ++ e.rel) []) (dstPath ++ e.rel) c)
          (fun e2 he2 => hclean e2 (List.mem_cons_of_mem e he2))
          hsrc1
          (fun e2 he2 e3 he3 => hdisj e2 (List.mem_cons_of_mem e he2) e3
            (List.mem_cons_of_mem e he3))
          hnd.2
      refine ⟨fs2, ?_, ?_⟩
      · simp only [copyFromLocalToLocal, hce, Bool.false_eq_true, if_false, hcopy,
          if_true, hrun1, hrun2, Option.map_some', List.filter_cons_of_pos hcopy,
          List.map_cons]
      · intro p
        by_cases hpe : copyPred dstPath p e = true
        · have hp : p = dstPath ++ e.rel := by
            have h2 := hpe
            unfold copyPred at h2
            simp only [Bool.and_eq_true, decide_eq_true_eq] at h2
            exact h2.2
          have hfind : (e :: rest).find? (copyPred dstPath p) = some e :=
            List.find?_cons_of_pos rest hpe
          rw [hfind]
          show fs2 p = fs (srcPath ++ e.rel)
          have hrn : rest.find? (copyPred dstPath p) = none := by
            rw [List.find?_eq_none]
            intro e2 he2
            unfold copyPred
            simp only [Bool.and_eq_true, decide_eq_true_eq, not_and]
            intro _ hp2
            exact absurd (List.append_cancel_left (hp.symm.trans hp2))
              (hnd.1 e2 he2)
          rw [hpt2 p, hrn]
          show fsInsert (fsInsert fs (dstPath ++ e.rel) []) (dstPath ++ e.rel) c p =
            fs (srcPath ++ e.rel)
          rw [hpt1 p, if_pos hp, hc]
        · have hfind : (e :: rest).find? (copyPred dstPath p) =
              rest.find? (copyPred dstPath p) :=
            List.find?_cons_of_neg rest hpe
          rw [hfind, hpt2 p]
          cases hfr : rest.find? (copyPred dstPath p) with
          | some e2 =>
            show fsInsert (fsInsert fs (dstPath ++ e.rel) []) (dstPath ++ e.rel) c
                (srcPath ++ e2.rel) = fs (srcPath ++ e2.rel)
            have he2 : e2 ∈ rest := List.mem_of_find?_eq_some hfr
            rw [hpt1, if_neg (fun hh =>
              (hdisj e (by simp) e2 (by simp [he2])) hh.symm)]
          | none =>
            show fsInsert (fsInsert fs (dstPath ++ e.rel) []) (dstPath ++ e.rel) c p =
              fs p
            have hp : p ≠ dstPath ++ e.rel := by
              intro hh
              exact hpe (by simp [copyPred, hcopy, hh])
            rw [hpt1, if_neg hp]
    · have hcf : isCopiedEntry e = false := by
        cases h2 : isCopiedEntry e
        · rfl
        · exact absurd h2 hcopy
      obtain ⟨fs2, hrun2, hpt2⟩ := ih fs
        (fun e2 he2 => hclean e2 (List.mem_cons_of_mem e he2))
        (fun e2 he2 => hsrc e2 (List.mem_cons_of_mem e he2))
        (fun e2 he2 e3 he3 => hdisj e2 (List.mem_cons_of_mem e he2) e3
          (List.mem_cons_of_mem e he3))
        hnd.2
      have hfil : List.filter isCopiedEntry (e :: rest) =
          List.filter isCopiedEntry rest := by
        simp [List.filter_cons, hcf]
      refine ⟨fs2, ?_, ?_⟩
      · simp only [copyFromLocalToLocal, hce, Bool.false_eq_true, if_false, hcf,
          hrun2, hfil]
      · intro p
        have hfind : (e :: rest).find? (copyPred dstPath p) =
            rest.find? (copyPred dstPath p) :=
          List.find?_cons_of_neg rest (by simp [copyPred, hcf])
        rw [hfind]
        exact hpt2 p

theorem find?_copyPred_of_mem (dstPath : Path) :
    ∀ entries : List WalkEntry, ∀ e ∈ entries, isCopiedEntry e = true →
      ∃ e2, entries.find? (copyPred dstPath (dstPath ++ e.rel)) = some e2 ∧
        e2.rel = e.rel := by
  intro entries
  induction entries with
  | nil => intro e he; cases he
  | cons a rest ih =>
    intro e he hc
    by_cases hpa : copyPred dstPath (dstPath ++ e.rel) a = true
    · refine ⟨a, List.find?_cons_of_pos rest hpa, ?_⟩
      have h2 := hpa
      unfold copyPred at h2
      simp only [Bool.and_eq_true, decide_eq_true_eq] at h2
      exact (List.append_cancel_left h2.2).symm
    · rcases List.mem_cons.1 he with rfl | hrest
      · exact absurd (by simp [copyPred, hc]) hpa
      · obtain ⟨e2, hf, hr⟩ := ih e hrest hc
        exact ⟨e2, (List.find?_cons_of_neg rest hpa).trans hf, hr⟩

/-- Claim C3: replaying an error-free walk of a source tree against a
fresh destination root disjoint from the source produces, for every file
entry, a byte-identical copy at the corresponding relative path under the
destination root, creates nothing else under the destination root, and
performs exactly one single file transfer per file entry, none for the
root marker or for directory entries. -/
theorem local_tree_roundtrip (srcPath dstPath : Path) (entries : List WalkEntry)
    (fs : Fs)
    (hclean : ∀ e ∈ entries, e.errDelivered = false)
    (hsrc : ∀ e ∈ entries, isCopiedEntry e = true → fs (srcPath ++ e.rel) ≠ none)
    (hdisj : ∀ e ∈ entries, ∀ e2 ∈ entries, dstPath ++ e.rel ≠ srcPath ++ e2.rel)
    (hnd : List.Pairwise (fun a b => a.rel ≠ b.rel) entries)
    (hfresh : ∀ q : Path, fs (dstPath ++ q) = none) :
    ∃ fs2,
      copyFromLocalToLocal srcPath dstPath entries fs =
        some (fs2, (entries.filter isCopiedEntry).map
          (fun e => (srcPath ++ e.rel, dstPath ++ e.rel))) ∧
      (∀ e ∈ entries, isCopiedEntry e = true →
        fs2 (dstPath ++ e.rel) = fs (srcPath ++ e.rel)) ∧
      (∀ q : Path, (∀ e ∈ entries, isCopiedEntry e = true → q ≠ e.rel) →
        fs2 (dstPath ++ q) = none) := by
  obtain ⟨fs2, hrun, hpt⟩ := copyFromLocalToLocal_run srcPath dstPath entries fs
    hclean hsrc hdisj hnd
  refine ⟨fs2, hrun, ?_, ?_⟩
  · intro e he hc
    obtain ⟨e2, hf, hr⟩ := find?_copyPred_of_mem dstPath entries e he hc
    rw [hpt (dstPath ++ e.rel), hf]
    show fs (srcPath ++ e2.rel) = fs (srcPath ++ e.rel)
    rw [hr]
  · intro q hq
    rw [hpt (dstPath ++ q)]
    cases hf : entries.find? (copyPred dstPath (dstPath ++ q)) with
    | some e =>
      exfalso
      have he := List.mem_of_find?_eq_some hf
      have h2 := List.find?_some hf
      unfold copyPred at h2
      simp only [Bool.and_eq_true, decide_eq_true_eq] at h2
      exact hq e he h2.1 (List.append_cancel_left h2.2)
    | none =>
      show fs (dstPath ++ q) = none
      exact hfresh q

/-- Witness for claim C3: a two-file tree with a subdirectory, walked from
root s into the fresh root d; both files land at their relative paths,
exactly two transfers happen, and an unrelated path under d stays
absent. -/
theorem local_tree_roundtrip_witness :
    ∃ fs2,
      copyFromLocalToLocal [['s']] [['d']]
          [⟨[], true, false⟩, ⟨[['a']], false, false⟩, ⟨[['u']], true, false⟩,
            ⟨[['u'], ['b']], false, false⟩]
          (fun p => if p = [['s'], ['a']] then some ['h', 'i']
            else if p = [['s'], ['u'], ['b']] then some ['y'] else none) =
        some (fs2, [([['s'], ['a']], [['d'], ['a']]),
          ([['s'], ['u'], ['b']], [['d'], ['u'], ['b']])]) ∧
      fs2 [['d'], ['a']] = some ['h', 'i'] ∧
      fs2 [['d'], ['u'], ['b']] = some ['y'] ∧
      fs2 [['d'], ['x']] = none := by
  obtain ⟨fs2, hrun, hcontent, hnone⟩ :=
    local_tree_roundtrip [['s']] [['d']]
      [⟨[], true, false⟩, ⟨[['a']], false, false⟩, ⟨[['u']], true, false⟩,
        ⟨[['u'], ['b']], false, false⟩]
      (fun p => if p = [['s'], ['a']] then some ['h', 'i']
        else if p = [['s'], ['u'], ['b']] then some ['y'] else none)
      (by decide) (by decide) (by decide) (by decide)
      (by
        intro q
        show (if (['d'] :: q : Path) = [['s'], ['a']] then some ['h', 'i']
          else if (['d'] :: q : Path) = [['s'], ['u'], ['b']] then some ['y']
          else none) = none
        rw [if_neg (by simp), if_neg (by simp)])
  refine ⟨fs2, hrun, ?_, ?_, ?_⟩
  · exact hcontent ⟨[['a']], false, false⟩ (by simp) (by decide)
  · exact hcontent ⟨[['u'], ['b']], false, false⟩ (by simp) (by decide)
  · exact hnone [['x']] (by decide)

/-- Claim C8: copying is idempotent on destination content.  Replaying
the same walk a second time over the filesystem the first run produced
performs the same transfers and leaves every path with the same content,
because each single file transfer opens its destination with create and
truncate rather than append; likewise a repeated local to local or remote
to local single file transfer reproduces the same state. -/
theorem copy_idempotent (srcPath dstPath : Path) (entries : List WalkEntry)
    (fs : Fs)
    (hclean : ∀ e ∈ entries, e.errDelivered = false)
    (hsrc : ∀ e ∈ entries, isCopiedEntry e = true → fs (srcPath ++ e.rel) ≠ none)
    (hdisj : ∀ e ∈ entries, ∀ e2 ∈ entries, dstPath ++ e.rel ≠ srcPath ++ e2.rel)
    (hnd : List.Pairwise (fun a b => a.rel ≠ b.rel) entries) :
    (∀ fs1 ts1, copyFromLocalToLocal srcPath dstPath entries fs = some (fs1, ts1) →
      ∃ fs2, copyFromLocalToLocal srcPath dstPath entries fs1 = some (fs2, ts1) ∧
        ∀ p, fs2 p = fs1 p) ∧
    (∀ (src dst : Path) (g : Fs),
      (copyFileFromLocalToLocal src dst g).bind (copyFileFromLocalToLocal src dst) =
        copyFileFromLocalToLocal src dst g) ∧
    (∀ (sb sk : Content) (dst : Path) (w w1 : World),
      copyFileFromGcsToLocal sb sk dst w = some w1 →
      copyFileFromGcsToLocal sb sk dst w1 = some w1) := by
  refine ⟨?_, ?_, ?_⟩
  · intro fs1 ts1 hrun1
    obtain ⟨fs1a, hruna, hpta⟩ := copyFromLocalToLocal_run srcPath dstPath entries fs
      hclean hsrc hdisj hnd
    rw [hrun1] at hruna
    have h2 := Option.some.inj hruna
    have hfs : fs1 = fs1a := congrArg Prod.fst h2
    have hts : ts1 = (entries.filter isCopiedEntry).map
        (fun e => (srcPath ++ e.rel, dstPath ++ e.rel)) := congrArg Prod.snd h2
    have hpt1 : ∀ p, fs1 p =
        match entries.find? (copyPred dstPath p) with
        | some e => fs (srcPath ++ e.rel)
        | none => fs p := by
      intro p; rw [hfs]; exact hpta p
    have hsrcpres : ∀ e ∈ entries, fs1 (srcPath ++ e.rel) = fs (srcPath ++ e.rel) := by
      intro e he
      rw [hpt1 (srcPath ++ e.rel)]
      have hfn : entries.find? (copyPred dstPath (srcPath ++ e.rel)) = none := by
        rw [List.find?_eq_none]
        intro e2 he2
        simp only [copyPred, Bool.and_eq_true, decide_eq_true_eq, not_and]
        intro _ hp2
        exact absurd hp2.symm (hdisj e2 he2 e he)
      rw [hfn]
    have hsrc2 : ∀ e ∈ entries, isCopiedEntry e = true →
        fs1 (srcPath ++ e.rel) ≠ none := by
      intro e he hc
      rw [hsrcpres e he]
      exact hsrc e he hc
    obtain ⟨fs2, hrun2, hpt2⟩ := copyFromLocalToLocal_run srcPath dstPath entries fs1
      hclean hsrc2 hdisj hnd
    refine ⟨fs2, ?_, ?_⟩
    · rw [hrun2, hts]
    · intro p
      rw [hpt2 p]
      cases hf : entries.find? (copyPred dstPath p) with
      | some e =>
        show fs1 (srcPath ++ e.rel) = fs1 p
        rw [hsrcpres e (List.mem_of_find?_eq_some hf), hpt1 p, hf]
      | none => rfl
  · intro src dst g
    cases hg : g src with
    | none => simp [copyFileFromLocalToLocal, hg]
    | some c =>
      by_cases hsd : src = dst
      · subst hsd
        have h1 : copyFileFromLocalToLocal src src g =
            some (fsInsert (fsInsert g src []) src []) := by
          simp only [copyFileFromLocalToLocal, hg, fsInsert_pos, Option.getD_some]
        rw [h1]
        show copyFileFromLocalToLocal src src (fsInsert (fsInsert g src []) src []) =
          some (fsInsert (fsInsert g src []) src [])
        have h2 : fsInsert (fsInsert g src []) src [] src = some ([] : Content) :=
          fsInsert_pos _ _ _
        simp only [copyFileFromLocalToLocal, h2, fsInsert_pos, Option.getD_some]
        congr 1
        funext p
        by_cases hp : p = src
        · subst hp; rw [fsInsert_pos, fsInsert_pos]
        · rw [fsInsert_neg _ _ _ _ hp, fsInsert_neg _ _ _ _ hp,
            fsInsert_neg _ _ _ _ hp]
      · have hne : dst ≠ src := fun h => hsd h.symm
        obtain ⟨hrun1, hpt1⟩ := copyFileFromLocalToLocal_run src dst g c hg hne
        rw [hrun1]
        show copyFileFromLocalToLocal src dst
            (fsInsert (fsInsert g dst []) dst c) =
          some (fsInsert (fsInsert g dst []) dst c)
        have hXsrc : fsInsert (fsInsert g dst []) dst c src = some c := by
          rw [hpt1 src, if_neg hsd]
          exact hg
        obtain ⟨hrun2, hpt2⟩ := copyFileFromLocalToLocal_run src dst
          (fsInsert (fsInsert g dst []) dst c) c hXsrc hne
        rw [hrun2]
        congr 1
        funext p
        rw [hpt2 p]
        by_cases hp : p = dst
        · rw [if_pos hp, hpt1 p, if_pos hp]
        · rw [if_neg hp]
  · intro sb sk dst w w1 h
    unfold copyFileFromGcsToLocal at h
    cases hs : w.store sb sk with
    | none => rw [hs] at h; exact absurd h (by simp)
    | some data =>
      rw [hs] at h
      have hw1 : w1 = ⟨fsInsert (fsInsert w.fs dst []) dst data, w.store⟩ :=
        (Option.some.inj h).symm
      subst hw1
      simp only [copyFileFromGcsToLocal, hs]
      congr 2
      funext p
      by_cases hp : p = dst
      · subst hp; rw [fsInsert_pos, fsInsert_pos]
      · rw [fsInsert_neg _ _ _ _ hp, fsInsert_neg _ _ _ _ hp,
          fsInsert_neg _ _ _ _ hp, fsInsert_neg _ _ _ _ hp]

/-- Witness for claim C8: the theorem applied to a one-file walk from root
s into root d over a concrete filesystem; the second run over the
filesystem the first run produced performs the same single transfer and
leaves the copied file as it was. -/
theorem copy_idempotent_witness :
    ∃ fs2, copyFromLocalToLocal [['s']] [['d']]
        [⟨[], true, false⟩, ⟨[['a']], false, false⟩]
        (fsInsert (fsInsert
          (fun p => if p = [['s'], ['a']] then some ['h', 'i'] else none)
          [['d'], ['a']] []) [['d'], ['a']] ['h', 'i']) =
      some (fs2, [([['s'], ['a']], [['d'], ['a']])]) ∧
      fs2 [['d'], ['a']] = some ['h', 'i'] := by
  obtain ⟨fs2, hrun, hpt⟩ := (copy_idempotent [['s']] [['d']]
      [⟨[], true, false⟩, ⟨[['a']], false, false⟩]
      (fun p => if p = [['s'], ['a']] then some ['h', 'i'] else none)
      (by decide) (by decide) (by decide) (by decide)).1
    (fsInsert (fsInsert
      (fun p => if p = [['s'], ['a']] then some ['h', 'i'] else none)
      [['d'], ['a']] []) [['d'], ['a']] ['h', 'i'])
    [([['s'], ['a']], [['d'], ['a']])]
    rfl
  exact ⟨fs2, hrun, (hpt [['d'], ['a']]).trans rfl⟩

/-- Claim C4, amended: an error delivered to the per-entry walk callback
during a local-source tree walk is fatal: the callback hands it to the
fatal logger, which aborts the process at once, so no remaining entry is
visited; only an error returned by the walk as a whole, after the
traversal, is merely logged. -/
theorem walk_error_is_fatal (srcPath dstPath : Path) (pre post : List WalkEntry)
    (e : WalkEntry) (herr : e.errDelivered = true) :
    (∀ fs : Fs, copyFromLocalToLocal srcPath dstPath (pre ++ e :: post) fs = none) ∧
    (∀ (db dk : Content) (w : World),
      copyFromLocalToGcs srcPath db dk (pre ++ e :: post) w = none) := by
  constructor
  · intro fs
    induction pre generalizing fs with
    | nil => simp [copyFromLocalToLocal, herr]
    | cons a rest ih =>
      simp only [List.cons_append, copyFromLocalToLocal]
      by_cases ha : a.errDelivered = true
      · rw [if_pos ha]
      · rw [if_neg ha]
        by_cases hac : isCopiedEntry a = true
        · rw [if_pos hac]
          cases copyFileFromLocalToLocal (srcPath ++ a.rel) (dstPath ++ a.rel) fs with
          | none => rfl
          | some fs1 =>
            show Option.map (fun r => (r.1, (srcPath ++ a.rel, dstPath ++ a.rel) :: r.2))
              (copyFromLocalToLocal srcPath dstPath (rest ++ e :: post) fs1) = none
            rw [ih fs1]
            rfl
        · rw [if_neg hac]
          exact ih fs
  · intro db dk w
    induction pre generalizing w with
    | nil => simp [copyFromLocalToGcs, herr]
    | cons a rest ih =>
      simp only [List.cons_append, copyFromLocalToGcs]
      by_cases ha : a.errDelivered = true
      · rw [if_pos ha]
      · rw [if_neg ha]
        by_cases hac : isCopiedEntry a = true
        · rw [if_pos hac]
          cases copyFileFromLocalToGcs (srcPath ++ a.rel) db
              (gcsDirJoin dk (pathToString a.rel)) w with
          | none => rfl
          | some w1 => exact ih w1
        · rw [if_neg hac]
          exact ih w

/-- Counterexample to claim C4 as stated: a walk that delivers an error
for its first event and then a perfectly good file entry aborts at once
and transfers nothing, where the claim promises the walk logs the error
and proceeds to copy the remaining file. -/
theorem walk_error_is_fatal_cex :
    copyFromLocalToLocal [['s']] [['d']]
        [⟨[], true, true⟩, ⟨[['f']], false, false⟩]
        (fun p => if p = [['s'], ['f']] then some ['x'] else none) = none ∧
    ∃ r, copyFromLocalToLocal [['s']] [['d']]
        [⟨[], true, false⟩, ⟨[['f']], false, false⟩]
        (fun p => if p = [['s'], ['f']] then some ['x'] else none) =
      some (r, [([['s'], ['f']], [['d'], ['f']])]) := by
  exact ⟨rfl, ⟨_, rfl⟩⟩

/-- Witness for claim C4: the amended theorem applied to a concrete walk
whose first event delivers an error, for both local-source directions. -/
theorem walk_error_is_fatal_witness :
    copyFromLocalToLocal [['s']] [['d']]
        [⟨[], true, true⟩, ⟨[['f']], false, false⟩] (fun _ => none) = none ∧
    copyFromLocalToGcs [['s']] ['b'] ['k']
        [⟨[], true, true⟩, ⟨[['f']], false, false⟩]
        ⟨fun _ => none, fun _ _ => none⟩ = none := by
  have h := walk_error_is_fatal [['s']] [['d']] [] [⟨[['f']], false, false⟩]
    ⟨[], true, true⟩ rfl
  exact ⟨h.1 (fun _ => none), h.2 ['b'] ['k'] ⟨fun _ => none, fun _ _ => none⟩⟩

/-- Claim C6, amended: in the local to local single file transfer the
destination handle is closed after the byte stream is copied and an error
from that close is fatal; the source handle, however, is never closed
anywhere in the routine and stays open until the process exits. -/
theorem close_behavior_local_to_local (src dst : Path) (fails : FileOp → Bool)
    (hne : src ≠ dst) (hfail : fails (FileOp.closeHandle dst) = true) :
    FileOp.closeHandle dst ∈ copyFileFromLocalToLocalOps src dst ∧
    runOps fails (copyFileFromLocalToLocalOps src dst) = false ∧
    FileOp.closeHandle src ∉ copyFileFromLocalToLocalOps src dst := by
  refine ⟨?_, ?_, ?_⟩
  · simp [copyFileFromLocalToLocalOps]
  · simp [copyFileFromLocalToLocalOps, runOps, hfail]
  · simp [copyFileFromLocalToLocalOps, hne]

/-- Counterexample to claim C6 as stated: the operation trace of the
local to local transfer opens the source for reading but holds no close
of the source handle, while the claim requires both handles closed. -/
theorem close_behavior_local_to_local_cex :
    FileOp.openRead [['a']] ∈ copyFileFromLocalToLocalOps [['a']] [['b']] ∧
    FileOp.closeHandle [['a']] ∉ copyFileFromLocalToLocalOps [['a']] [['b']] := by
  decide

/-- Witness for claim C6: the amended theorem applied to concrete paths
with an oracle that fails exactly the destination close. -/
theorem close_behavior_local_to_local_witness :
    FileOp.closeHandle [['b']] ∈ copyFileFromLocalToLocalOps [['a']] [['b']] ∧
    runOps (fun o => decide (o = FileOp.closeHandle [['b']]))
      (copyFileFromLocalToLocalOps [['a']] [['b']]) = false ∧
    FileOp.closeHandle [['a']] ∉ copyFileFromLocalToLocalOps [['a']] [['b']] :=
  close_behavior_local_to_local [['a']] [['b']]
    (fun o => decide (o = FileOp.closeHandle [['b']])) (by decide) (by decide)

/-- Claim C10, amended: no copy direction modifies its source, except
that a local to local transfer whose destination path is the source path
itself truncates the file before reading it back; with that aliased case
excluded, the local source file, the whole local filesystem under a
remote destination, the whole store under a remote source with local
destination, and the source object of a server side copy, all keep
exactly their prior content. -/
theorem copy_preserves_source :
    (∀ (src dst : Path) (fs fs1 : Fs), src ≠ dst →
      copyFileFromLocalToLocal src dst fs = some fs1 → fs1 src = fs src) ∧
    (∀ (src : Path) (db dk : Content) (w w1 : World),
      copyFileFromLocalToGcs src db dk w = some w1 → ∀ p, w1.fs p = w.fs p) ∧
    (∀ (sb sk : Content) (dst : Path) (w w1 : World),
      copyFileFromGcsToLocal sb sk dst w = some w1 →
      ∀ b2 k2, w1.store b2 k2 = w.store b2 k2) ∧
    (∀ (sb sk db dk : Content) (w w1 : World),
      copyFileFromGcsToGcs sb sk db dk w = some w1 →
      w1.store sb sk = w.store sb sk) := by
  refine ⟨?_, ?_, ?_, ?_⟩
  · intro src dst fs fs1 hne h
    cases hg : fs src with
    | none =>
      unfold copyFileFromLocalToLocal at h
      rw [hg] at h
      exact absurd h (by simp)
    | some c =>
      obtain ⟨hrun, hpt⟩ := copyFileFromLocalToLocal_run src dst fs c hg
        (fun hh => hne hh.symm)
      rw [h] at hrun
      rw [Option.some.inj hrun, hpt src, if_neg hne, hg]
  · intro src db dk w w1 h p
    unfold copyFileFromLocalToGcs at h
    cases hg : w.fs src with
    | none => rw [hg] at h; exact absurd h (by simp)
    | some data =>
      rw [hg] at h
      rw [← Option.some.inj h]
  · intro sb sk dst w w1 h b2 k2
    unfold copyFileFromGcsToLocal at h
    cases hg : w.store sb sk with
    | none => rw [hg] at h; exact absurd h (by simp)
    | some data =>
      rw [hg] at h
      rw [← Option.some.inj h]
  · intro sb sk db dk w w1 h
    unfold copyFileFromGcsToGcs at h
    cases hg : w.store sb sk with
    | none => rw [hg] at h; exact absurd h (by simp)
    | some data =>
      rw [hg] at h
      rw [← Option.some.inj h]
      show storeInsert w.store db dk data sb sk = some data
      unfold storeInsert
      by_cases hbk : sb = db ∧ sk = dk
      · rw [if_pos hbk]
      · rw [if_neg hbk]
        exact hg

/-- Counterexample to claim C10 as stated: copying the local file a onto
itself succeeds but leaves the source file empty, because the destination
open truncates the very file before its bytes are read, while the claim
requires every source file to keep exactly its prior content. -/
theorem copy_preserves_source_cex :
    ∃ fs1, copyFileFromLocalToLocal [['a']] [['a']]
        (fun p => if p = [['a']] then some ['h', 'i'] else none) = some fs1 ∧
      fs1 [['a']] = some [] ∧
      (fun p : Path => if p = [['a']] then some ['h', 'i'] else none) [['a']] =
        some ['h', 'i'] :=
  ⟨_, rfl, rfl, rfl⟩

/-- Witness for claim C10: the amended theorem applied to a concrete
non-aliased local to local transfer, whose source keeps its content. -/
theorem copy_preserves_source_witness :
    ([['a']] : Path) ≠ [['b']] ∧
    ∃ fs1, copyFileFromLocalToLocal [['a']] [['b']]
        (fun p => if p = [['a']] then some ['h'] else none) = some fs1 ∧
      fs1 [['a']] = some ['h'] := by
  have hrun : copyFileFromLocalToLocal [['a']] [['b']]
      (fun p => if p = [['a']] then some ['h'] else none) =
      some (fsInsert (fsInsert (fun p => if p = [['a']] then some ['h'] else none)
        [['b']] []) [['b']] ['h']) := rfl
  refine ⟨by decide, _, hrun, ?_⟩
  exact (copy_preserves_source.1 [['a']] [['b']] _ _ (by decide) hrun).trans rfl

/-- Claim C2: every transfer the remote-source walk loops emit takes a
listed object whose key extends the source key root, computes the
relative path as that key with the first characters removed up to the
length of the root, sends it to the literal destination path when the
relative path is empty, and otherwise to the destination root joined with
the relative path: through the platform path join for a local
destination, and through the explicit slash separator for a remote
destination; every listed object yields exactly one transfer. -/
theorem gcs_tree_walk_destinations (join : Content → Content → Content)
    (srcPath dstPath : Content) (listing : List Content)
    (hpre : ∀ name ∈ listing, ∃ rel, srcPath ++ rel = name) :
    ((copyFromGcsToLocalPlan join srcPath dstPath listing).map Prod.fst = listing ∧
      (copyFromGcsToGcsPlan srcPath dstPath listing).map Prod.fst = listing) ∧
    (∀ t ∈ copyFromGcsToLocalPlan join srcPath dstPath listing,
      ∃ rel, srcPath ++ rel = t.1 ∧
        t.2 = if rel = [] then dstPath else join dstPath rel) ∧
    (∀ t ∈ copyFromGcsToGcsPlan srcPath dstPath listing,
      ∃ rel, srcPath ++ rel = t.1 ∧
        t.2 = if rel = [] then dstPath else gcsDirJoin dstPath rel) := by
  have hfst : ∀ g : Content → Content × Content, (∀ n, (g n).1 = n) →
      ∀ l : List Content, (l.map g).map Prod.fst = l := by
    intro g hg l
    induction l with
    | nil => rfl
    | cons a t iht => simp [hg a, iht]
  refine ⟨⟨?_, ?_⟩, ?_, ?_⟩
  · exact hfst _ (fun n => by dsimp only; split <;> rfl) listing
  · exact hfst _ (fun n => by dsimp only; split <;> rfl) listing
  · intro t ht
    simp only [copyFromGcsToLocalPlan, List.mem_map] at ht
    obtain ⟨name, hn, heq⟩ := ht
    obtain ⟨rel, hrel⟩ := hpre name hn
    have hdrop : name.drop srcPath.length = rel := by
      rw [← hrel]
      exact List.drop_left srcPath rel
    refine ⟨rel, ?_, ?_⟩
    · rw [← heq]
      rw [hdrop]
      by_cases hr : rel = []
      · rw [if_pos hr]; exact hrel
      · rw [if_neg hr]; exact hrel
    · rw [← heq]
      rw [hdrop]
      by_cases hr : rel = []
      · rw [if_pos hr, if_pos hr]
      · rw [if_neg hr, if_neg hr]
  · intro t ht
    simp only [copyFromGcsToGcsPlan, List.mem_map] at ht
    obtain ⟨name, hn, heq⟩ := ht
    obtain ⟨rel, hrel⟩ := hpre name hn
    have hdrop : name.drop srcPath.length = rel := by
      rw [← hrel]
      exact List.drop_left srcPath rel
    refine ⟨rel, ?_, ?_⟩
    · rw [← heq]
      rw [hdrop]
      by_cases hr : rel = []
      · rw [if_pos hr]; exact hrel
      · rw [if_neg hr]; exact hrel
    · rw [← heq]
      rw [hdrop]
      by_cases hr : rel = []
      · rw [if_pos hr, if_pos hr]
      · rw [if_neg hr, if_neg hr]

/-- Witness for claim C2: the theorem applied to a listing under the key
root p slash that holds the root-equal object and one nested object; the
nested object goes to the joined destination, and the relative path is
the key minus the root. -/
theorem gcs_tree_walk_destinations_witness :
    ∃ rel, ['p', '/'] ++ rel = ['p', '/', 'x'] ∧
      ((['p', '/', 'x'], ['d', '/', 'x']) : Content × Content).2 =
        if rel = [] then ['d'] else ['d'] ++ '/' :: rel := by
  have h := (gcs_tree_walk_destinations (fun a b => a ++ '/' :: b) ['p', '/'] ['d']
    [['p', '/'], ['p', '/', 'x']]
    (by
      intro name hn
      rcases List.mem_cons.1 hn with rfl | hn2
      · exact ⟨[], rfl⟩
      · rcases List.mem_cons.1 hn2 with rfl | hn3
        · exact ⟨['x'], rfl⟩
        · cases hn3)).2.1
  exact h (['p', '/', 'x'], ['d', '/', 'x']) (by decide)

end GcsCopy
